import Mathlib

/-!
# Verification of the todo extraction and deduplication engine

A shallow embedding of the core of the `ai-note` plugin: the line
classifier and extraction engine (`TodoParser`), the store operations and
the reconciler (`StorageService`), and the watcher's parse-and-update step
(`FileWatcher.parseAndUpdate`).

Strings are modelled as `List Char`.  JavaScript `\s` (as used by the
regexes and by `String.prototype.trim`) is modelled by `isWsChar`; the
characters `.` refuses to match (line terminators) by `isTermChar`.
Timestamps (`Date.now()`) are passed explicitly as a `now : Nat`
parameter.  Floating-point similarity scores are modelled exactly in `ℚ`
(all values arising in the claims are exactly representable).
-/

/-- Whitespace as matched by JavaScript `\s` and stripped by `trim`
(the members relevant to this code base). -/
def isWsChar (c : Char) : Bool :=
  c = ' ' || c = '\t' || c = '\n' || c = '\r' ||
  c = '\x0b' || c = '\x0c' || c = '\u00A0' || c = '\u2028' || c = '\u2029' || c = '\uFEFF'

/-- Line terminators: the characters a JavaScript regex `.` does not match. -/
def isTermChar (c : Char) : Bool :=
  c = '\n' || c = '\r' || c = '\u2028' || c = '\u2029'

/-- `String.prototype.trim`: strip leading and trailing whitespace. -/
def trimChars (l : List Char) : List Char :=
  ((l.dropWhile isWsChar).reverse.dropWhile isWsChar).reverse

/-- `replace(/\s+/g, ' ')`: collapse every whitespace run to one space. -/
def collapseWs : List Char → List Char
  | [] => []
  | [c] => if isWsChar c then [' '] else [c]
  | c₁ :: c₂ :: rest =>
    if isWsChar c₁ && isWsChar c₂ then collapseWs (c₂ :: rest)
    else (if isWsChar c₁ then ' ' else c₁) :: collapseWs (c₂ :: rest)

/-- JavaScript `String.prototype.split(sep)` for a one-character separator
(`"".split(sep)` is `[""]`, and separators at the ends produce empty fields). -/
def splitOnChar (sep : Char) : List Char → List (List Char)
  | [] => [[]]
  | c :: rest =>
    if c = sep then [] :: splitOnChar sep rest
    else
      match splitOnChar sep rest with
      | [] => [[c]]
      | g :: gs => (c :: g) :: gs

/-! ## Data model (`src/types/todo.ts`) -/

inductive TodoStatus where
  | Pending
  | InProgress
  | Completed
deriving DecidableEq, Repr

inductive TodoSource where
  | Regex
  | Semantic
deriving DecidableEq, Repr

inductive Confidence where
  | high
  | medium
  | low
deriving DecidableEq, Repr

structure TodoItem where
  id : List Char
  content : List Char
  status : TodoStatus
  filePath : List Char
  lineNumber : Nat
  createdAt : Nat
  updatedAt : Nat
  context : Option (List Char)
  source : Option TodoSource
  confidence : Option Confidence
deriving DecidableEq, Repr

/-- `Partial<TodoItem>`: each field optionally present. -/
structure TodoPatch where
  id : Option (List Char)
  content : Option (List Char)
  status : Option TodoStatus
  filePath : Option (List Char)
  lineNumber : Option Nat
  createdAt : Option Nat
  updatedAt : Option Nat
  context : Option (Option (List Char))
  source : Option (Option TodoSource)
  confidence : Option (Option Confidence)
deriving DecidableEq, Repr

/-- The empty patch (`{}`), for building concrete patches. -/
def emptyPatch : TodoPatch :=
  ⟨none, none, none, none, none, none, none, none, none, none⟩

/-- `{...todos[index], ...updates, updatedAt: Date.now()}`: fields present in
the patch win over the old record, and `updatedAt` is set last. -/
def applyPatch (t : TodoItem) (p : TodoPatch) (now : Nat) : TodoItem :=
  { id := p.id.getD t.id
    content := p.content.getD t.content
    status := p.status.getD t.status
    filePath := p.filePath.getD t.filePath
    lineNumber := p.lineNumber.getD t.lineNumber
    createdAt := p.createdAt.getD t.createdAt
    updatedAt := now
    context := p.context.getD t.context
    source := p.source.getD t.source
    confidence := p.confidence.getD t.confidence }

/-! ## StorageService (`src/services/storageService.ts`)

The persisted collection under the single storage key is modelled as the
`List TodoItem` each static method reads (`getTodos`) and writes back
(`saveTodos`); each mutating method is a function from that list to the
updated list. -/

/-- `StorageService.updateTodo`: find the first record whose `id` matches,
merge the partial update into it, bump `updatedAt`.  Returns the written
store and the boolean result (`false` leaves the store untouched). -/
def updateTodo (todos : List TodoItem) (todoId : List Char) (p : TodoPatch)
    (now : Nat) : Bool × List TodoItem :=
  match todos with
  | [] => (false, [])
  | t :: rest =>
    if t.id = todoId then (true, applyPatch t p now :: rest)
    else
      match updateTodo rest todoId p now with
      | (true, rest') => (true, t :: rest')
      | (false, _) => (false, t :: rest)

/-- `StorageService.deleteTodo`. -/
def deleteTodo (todos : List TodoItem) (todoId : List Char) : Bool × List TodoItem :=
  let filtered := todos.filter fun t => ¬ t.id = todoId
  if filtered.length = todos.length then (false, todos) else (true, filtered)

/-- `StorageService.updateTodosByFile`: drop every record whose `filePath`
equals the argument and append the new ones. -/
def updateTodosByFile (todos : List TodoItem) (filePath : List Char)
    (newTodos : List TodoItem) : List TodoItem :=
  todos.filter (fun t => ¬ t.filePath = filePath) ++ newTodos

/-- `StorageService.getTodosForFile`: filter by `filePath` (no sorting). -/
def getTodosForFile (todos : List TodoItem) (filePath : List Char) : List TodoItem :=
  todos.filter fun t => t.filePath = filePath

/-- `StorageService.normalizeContent`:
`content.toLowerCase().replace(/\s+/g, ' ').trim()`. -/
def normalizeContent (content : List Char) : List Char :=
  trimChars (collapseWs (content.map Char.toLower))

/-- JavaScript `Set` built from a list: first occurrence kept, insertion
order preserved (as iterated by the spread `[...set]`). -/
def insertUnique (l : List (List Char)) (a : List Char) : List (List Char) :=
  if a ∈ l then l else l ++ [a]

/-- `[...new Set(xs)]`. -/
def setOfWords (xs : List (List Char)) : List (List Char) :=
  xs.foldl insertUnique []

/-- `StorageService.calculateSimilarity`: 1 on identical normalized strings,
otherwise the word-set Jaccard quotient, computed exactly in `ℚ`. -/
def calculateSimilarity (a b : List Char) : ℚ :=
  let normalizedA := normalizeContent a
  let normalizedB := normalizeContent b
  if normalizedA = normalizedB then 1
  else
    let wordsA := setOfWords (splitOnChar ' ' normalizedA)
    let wordsB := setOfWords (splitOnChar ' ' normalizedB)
    let intersection := (wordsA.filter fun w => w ∈ wordsB).length
    let union := (setOfWords (wordsA ++ wordsB)).length
    (intersection : ℚ) / (union : ℚ)

/-- The duplicate test of `StorageService.mergeSemanticTodos`: exact
normalized match, or line distance at most 2 with similarity above 0.8. -/
def isDuplicate (existingForFile : List TodoItem) (c : TodoItem) : Bool :=
  existingForFile.any fun existing =>
    normalizeContent existing.content = normalizeContent c.content ||
    (((existing.lineNumber : Int) - (c.lineNumber : Int)).natAbs ≤ 2 &&
      calculateSimilarity existing.content c.content > (4 / 5 : ℚ))

/-- The candidate loop of `mergeSemanticTodos`: returns the accepted
records in input order together with the `added` and `skipped` tallies. -/
def mergeLoop (existingForFile : List TodoItem) :
    List TodoItem → List TodoItem × Nat × Nat
  | [] => ([], 0, 0)
  | c :: rest =>
    let r := mergeLoop existingForFile rest
    if isDuplicate existingForFile c then (r.1, r.2.1, r.2.2 + 1)
    else (c :: r.1, r.2.1 + 1, r.2.2)

/-- `StorageService.mergeSemanticTodos`: the written store (unchanged when
nothing is accepted, which coincides with appending the empty list) and the
`{added, skipped}` result. -/
def mergeSemanticTodos (todos : List TodoItem) (filePath : List Char)
    (semanticTodos : List TodoItem) : List TodoItem × Nat × Nat :=
  let existingForFile := todos.filter fun t => t.filePath = filePath
  let r := mergeLoop existingForFile semanticTodos
  (todos ++ r.1, r.2.1, r.2.2)

/-! ## TodoParser (`src/todoParser.ts`)

Each regex of `parseLine` is embedded as a deterministic matcher that
follows the backtracking behavior of the JavaScript engine on the pattern
in question (all four patterns are deterministic except for the trailing
`\s+(.+)$` / `\s*(.+)` groups, whose give-back behavior is implemented
explicitly). -/

/-- The character class `([ x~])` under the `/i` flag. -/
def isCheckboxMark (c : Char) : Bool :=
  c = ' ' || c = 'x' || c = 'X' || c = '~'

/-- `TodoParser.parseStatus` (the argument is the captured mark). -/
def parseStatus (c : Char) : TodoStatus :=
  match Char.toLower c with
  | 'x' => TodoStatus.Completed
  | '~' => TodoStatus.InProgress
  | _ => TodoStatus.Pending

/-- Match `\s+(.+)$` against the rest of the line: at least one whitespace
character, then the capture, which must run to the end of the string and
contain no line terminator.  When everything after the whitespace run is
empty, the engine gives back trailing whitespace so that `(.+)` can match,
which succeeds exactly when the run keeps a final non-terminator char. -/
def checkboxTail (r : List Char) : Option (List Char) :=
  match r with
  | [] => none
  | c :: _ =>
    if isWsChar c then
      let body := r.dropWhile isWsChar
      if body.isEmpty then
        if 2 ≤ r.length then
          match r.getLast? with
          | some lc => if isTermChar lc then none else some [lc]
          | none => none
        else none
      else if body.all (fun d => !isTermChar d) then some body else none
    else none

/-- Match `\s*(.+)` against the rest of the line: optional whitespace, then
a greedy capture of at least one non-terminator character.  When the rest
is all whitespace the engine gives back up to the last non-terminator
whitespace character, which then forms the capture on its own. -/
def markerTail (r : List Char) : Option (List Char) :=
  let body := r.dropWhile isWsChar
  if body.isEmpty then
    match (r.filter fun c => !isTermChar c).getLast? with
    | some lc => some [lc]
    | none => none
  else some (body.takeWhile fun c => !isTermChar c)

/-- Case-insensitive literal match (the pattern is given lowercased);
returns the rest of the input after the literal. -/
def matchLiteralCI : List Char → List Char → Option (List Char)
  | [], r => some r
  | _ :: _, [] => none
  | p :: ps, c :: cs => if Char.toLower c = p then matchLiteralCI ps cs else none

/-- The anchored checkbox pattern `^[-*]\s+\[([ x~])\]\s+(.+)$` (`/i`),
applied to the trimmed line; returns the mark and the raw capture. -/
def matchCheckbox (l : List Char) : Option (Char × List Char) :=
  match l with
  | [] => none
  | b :: rest =>
    if b = '-' || b = '*' then
      if (rest.takeWhile isWsChar).isEmpty then none
      else
        match rest.dropWhile isWsChar with
        | '[' :: m :: ']' :: rest2 =>
          if isCheckboxMark m then
            match checkboxTail rest2 with
            | some cap => some (m, cap)
            | none => none
          else none
        | _ => none
    else none

/-- Unanchored search for `LITERAL\s*(.+)` (`/i`): try every start
position from the left; at a position where the literal matches but the
tail cannot, the engine moves on to the next position. -/
def searchMarker (pat : List Char) : List Char → Option (List Char)
  | [] => none
  | c :: rest =>
    match matchLiteralCI pat (c :: rest) with
    | some r =>
      match markerTail r with
      | some cap => some cap
      | none => searchMarker pat rest
    | none => searchMarker pat rest

def todoPat : List Char := ['t', 'o', 'd', 'o', ':']

def donePat : List Char := ['d', 'o', 'n', 'e', ':']

def progressPat : List Char := ['p', 'r', 'o', 'g', 'r', 'e', 's', 's', ':']

/-- The anchored attempt of `IN[- ]?PROGRESS:\s*(.+)` (`/i`) at one start
position.  The optional `[- ]?` consumes a separator when one is present;
if the literal after a consumed separator fails, the give-back alternative
(no separator) necessarily fails too, since `p` is neither `-` nor space. -/
def inProgAfterIn : List Char → Option (List Char)
  | [] => none
  | c :: rest =>
    if c = '-' || c = ' ' then
      match matchLiteralCI progressPat rest with
      | some r2 => markerTail r2
      | none => none
    else
      match matchLiteralCI progressPat (c :: rest) with
      | some r2 => markerTail r2
      | none => none

def matchInProgAt (l : List Char) : Option (List Char) :=
  match matchLiteralCI ['i', 'n'] l with
  | none => none
  | some r1 => inProgAfterIn r1

theorem inProgAfterIn_cons (c : Char) (rest : List Char) :
    inProgAfterIn (c :: rest) =
      if c = '-' || c = ' ' then
        match matchLiteralCI progressPat rest with
        | some r2 => markerTail r2
        | none => none
      else
        match matchLiteralCI progressPat (c :: rest) with
        | some r2 => markerTail r2
        | none => none := rfl

/-- Unanchored search for the in-progress pattern. -/
def searchInProg : List Char → Option (List Char)
  | [] => none
  | c :: rest =>
    match matchInProgAt (c :: rest) with
    | some cap => some cap
    | none => searchInProg rest

/-- `TodoParser.getContext`: the trimmed, non-blank neighbors of the line
(zero-based index), joined with `" | "`. -/
def getContext (allLines : List (List Char)) (currentIndex : Nat) : List Char :=
  let start := currentIndex - 1
  let stop := min allLines.length (currentIndex + 2)
  let contextLines :=
    ((List.range' start (stop - start)).filter fun i => ¬ i = currentIndex).filterMap
      fun i =>
        let t := trimChars ((allLines.get? i).getD [])
        if t.isEmpty then none else some t
  List.intercalate [' ', '|', ' '] contextLines

/-- `TodoParser.createTodoItem`; the id is `filePath:lineNumber:now`. -/
def createTodoItem (filePath content : List Char) (status : TodoStatus)
    (lineNumber : Nat) (context : List Char) (now : Nat) : TodoItem :=
  { id := filePath ++ ':' :: Nat.toDigits 10 lineNumber ++ ':' :: Nat.toDigits 10 now
    content := content
    status := status
    filePath := filePath
    lineNumber := lineNumber
    createdAt := now
    updatedAt := now
    context := some context
    source := some TodoSource.Regex
    confidence := none }

/-- `TodoParser.parseLine`: trim the line, then try the checkbox, `TODO:`,
`DONE:` and `IN PROGRESS:` rules in that order; every rule trims its
capture.  `lineNumber` is 1-indexed. -/
def parseLine (filePath line : List Char) (lineNumber : Nat)
    (allLines : List (List Char)) (now : Nat) : Option TodoItem :=
  let trimmedLine := trimChars line
  let context := getContext allLines (lineNumber - 1)
  match matchCheckbox trimmedLine with
  | some (m, cap) =>
    some (createTodoItem filePath (trimChars cap) (parseStatus m) lineNumber context now)
  | none =>
    match searchMarker todoPat trimmedLine with
    | some cap =>
      some (createTodoItem filePath (trimChars cap) TodoStatus.Pending lineNumber context now)
    | none =>
      match searchMarker donePat trimmedLine with
      | some cap =>
        some (createTodoItem filePath (trimChars cap) TodoStatus.Completed lineNumber context now)
      | none =>
        match searchInProg trimmedLine with
        | some cap =>
          some (createTodoItem filePath (trimChars cap) TodoStatus.InProgress lineNumber context now)
        | none => none

/-- `TodoParser.parseTodos`: split on newlines and classify every line
(1-indexed), keeping the non-`none` results in line order. -/
def parseTodos (filePath content : List Char) (now : Nat) : List TodoItem :=
  let lines := splitOnChar '\n' content
  lines.enum.filterMap fun p => parseLine filePath p.2 (p.1 + 1) lines now

/-- `TodoParser.parseFile`: the file content source either yields the text
or fails; on failure the catch block logs and returns the empty list. -/
def parseFile (filePath : List Char) (readResult : Option (List Char))
    (now : Nat) : List TodoItem :=
  match readResult with
  | some content => parseTodos filePath content now
  | none => []

/-- `FileWatcher.parseAndUpdate`: parse the file and replace its records
in the store (`updateTodosByFile`). -/
def parseAndUpdate (todos : List TodoItem) (filePath : List Char)
    (readResult : Option (List Char)) (now : Nat) : List TodoItem :=
  updateTodosByFile todos filePath (parseFile filePath readResult now)

/-! ## Concrete records used by counterexamples and witnesses -/

/-- Build a concrete record with the given file, text, line and source. -/
def mkTodo (fp content : String) (ln : Nat) (src : Option TodoSource) : TodoItem :=
  { id := fp.toList ++ ':' :: Nat.toDigits 10 ln
    content := content.toList
    status := TodoStatus.Pending
    filePath := fp.toList
    lineNumber := ln
    createdAt := 0
    updatedAt := 0
    context := none
    source := src
    confidence := none }

def markerRec10 : TodoItem := mkTodo "notes.md" "buy milk" 10 (some TodoSource.Regex)

def inferredRec3 : TodoItem := mkTodo "notes.md" "call dentist" 3 (some TodoSource.Semantic)

def semRecA : TodoItem := mkTodo "a.md" "inferred thing" 3 (some TodoSource.Semantic)

def recIdA : TodoItem := mkTodo "a.md" "task" 1 none

/-! ## Reconciler lemmas -/

/-- The candidate loop keeps exactly the candidates that are not duplicates
of the pre-existing records, in order, and tallies both kinds. -/
theorem mergeLoop_eq_filter (ex : List TodoItem) (sems : List TodoItem) :
    mergeLoop ex sems =
      (sems.filter (fun c => !isDuplicate ex c),
       (sems.filter (fun c => !isDuplicate ex c)).length,
       (sems.filter (fun c => isDuplicate ex c)).length) := by
  induction sems with
  | nil => rfl
  | cons c rest ih =>
    simp only [mergeLoop, ih, List.filter_cons]
    cases h : isDuplicate ex c <;> simp [h]

/-- C1: the claim (store left unchanged when the file read fails) is the
spec's stated intent, but the code wipes the file's records: `parseFile`
swallows the read error and returns `[]`, which `parseAndUpdate` then
hands to `updateTodosByFile`, deleting every existing record of the file.
Here a store holding one record for `notes.md` becomes empty. -/
theorem read_failure_wipes_existing_records :
    parseAndUpdate [markerRec10] "notes.md".toList none 99 = [] ∧
    parseAndUpdate [markerRec10] "notes.md".toList none 99 ≠ [markerRec10] := by
  constructor
  · decide
  · decide

/-- C2 counterexample: an `Inferred` (semantic) record for the file is
removed by the re-scan replacement, contradicting the claim that every
`Inferred` record for the file survives. -/
theorem rescan_removes_inferred_counterexample :
    semRecA.source = some TodoSource.Semantic ∧
    semRecA.filePath = "a.md".toList ∧
    semRecA ∉ updateTodosByFile [semRecA] "a.md".toList [] := by
  refine ⟨rfl, rfl, ?_⟩
  decide

/-- C2 (amended): the re-scan replacement for a file removes every stored
record of that file — `Marker` and `Inferred` alike — and inserts exactly
the new extraction output; records of other files are all preserved. -/
theorem rescan_replaces_all_records_for_file :
    ∀ (todos : List TodoItem) (fp : List Char) (newTodos : List TodoItem) (t : TodoItem),
      t ∈ updateTodosByFile todos fp newTodos ↔
        (t ∈ todos ∧ ¬ t.filePath = fp) ∨ t ∈ newTodos := by
  intro todos fp ns t
  simp [updateTodosByFile]

/-- C3: with existing `[{buy milk, line 10}]` and candidates
`[{buy milk, 50}, {Buy   Milk, 11}, {call dentist, 3}]`, the reconciler
accepts only `call dentist` and reports `added = 1`, `skipped = 2`:
both `buy milk` candidates are exact normalized matches, the first despite
its line distance of 40. -/
theorem reconcile_scenario_buy_milk :
    mergeSemanticTodos [markerRec10] "notes.md".toList
      [mkTodo "notes.md" "buy milk" 50 (some TodoSource.Semantic),
       mkTodo "notes.md" "Buy   Milk" 11 (some TodoSource.Semantic),
       inferredRec3] =
    ([markerRec10, inferredRec3], 1, 2) := by
  decide

/-- C4: duplicates are judged solely against the pre-existing records of
the file: the merge appends exactly the candidates that are not duplicates
of that fixed set (so existing records are never mutated or removed), and
a batch of two identical novel candidates is accepted twice. -/
theorem reconcile_against_existing_only :
    (∀ (todos : List TodoItem) (fp : List Char) (sems : List TodoItem),
        mergeSemanticTodos todos fp sems =
          (todos ++
             sems.filter (fun c => !isDuplicate (todos.filter fun t => t.filePath = fp) c),
           (sems.filter (fun c => !isDuplicate (todos.filter fun t => t.filePath = fp) c)).length,
           (sems.filter (fun c => isDuplicate (todos.filter fun t => t.filePath = fp) c)).length)) ∧
    (∀ (todos : List TodoItem) (fp : List Char) (c : TodoItem),
        isDuplicate (todos.filter fun t => t.filePath = fp) c = false →
        mergeSemanticTodos todos fp [c, c] = (todos ++ [c, c], 2, 0)) := by
  constructor
  · intro todos fp sems
    simp [mergeSemanticTodos, mergeLoop_eq_filter]
  · intro todos fp c h
    simp [mergeSemanticTodos, mergeLoop, h]

/-- C4 witness: two identical candidates against an empty store are both
accepted. -/
theorem reconcile_against_existing_only_witness :
    mergeSemanticTodos [] "a.md".toList [semRecA, semRecA] = ([semRecA, semRecA], 2, 0) :=
  reconcile_against_existing_only.2 [] "a.md".toList semRecA (by decide)

/-- The store state of the C7 scenario: a marker record at line 10, then
the reconciler appends an inferred record at line 3. -/
def storeAfterMerge : List TodoItem :=
  (mergeSemanticTodos [markerRec10] "notes.md".toList [inferredRec3]).1

/-- C7 counterexample: after the reconciler appends an inferred record at
line 3 behind the marker record at line 10, `getTodosForFile` returns them
in storage order `[10, 3]`, not sorted by ascending line number. -/
theorem getTodosForFile_unsorted_counterexample :
    ((getTodosForFile storeAfterMerge "notes.md".toList).map fun t => t.lineNumber) = [10, 3] ∧
    ¬ List.Sorted (· ≤ ·)
        ((getTodosForFile storeAfterMerge "notes.md".toList).map fun t => t.lineNumber) := by
  constructor
  · decide
  · intro h
    have : (10 : Nat) ≤ 3 := by
      have h10 : ((getTodosForFile storeAfterMerge "notes.md".toList).map
          fun t => t.lineNumber) = [10, 3] := by decide
      rw [h10] at h
      exact List.rel_of_sorted_cons h 3 (by simp)
    omega

/-- C7 (amended): `getTodosForFile` returns exactly the stored records
whose `filePath` equals the argument, in storage order (a sublist of the
store); it does not sort, so line numbers need not be ascending. -/
theorem getTodosForFile_filters_in_storage_order :
    (∀ (todos : List TodoItem) (fp : List Char),
        List.Sublist (getTodosForFile todos fp) todos) ∧
    (∀ (todos : List TodoItem) (fp : List Char) (t : TodoItem),
        t ∈ getTodosForFile todos fp ↔ t ∈ todos ∧ t.filePath = fp) := by
  constructor
  · intro todos fp
    exact List.filter_sublist todos
  · intro todos fp t
    simp [getTodosForFile]

/-- A patch that sets the `id` field (allowed by `Partial<TodoItem>`). -/
def idPatch : TodoPatch :=
  { emptyPatch with id := some "b.md:9".toList }

/-- C9 counterexample: `updateTodo` with a patch containing `id` replaces
the stored record's identity. -/
theorem updateTodo_can_change_id_counterexample :
    (updateTodo [recIdA] recIdA.id idPatch 5).1 = true ∧
    ((updateTodo [recIdA] recIdA.id idPatch 5).2.map fun t => t.id) = ["b.md:9".toList] ∧
    recIdA.id ≠ "b.md:9".toList := by
  refine ⟨by decide, by decide, by decide⟩

/-- C9 (amended): as long as the partial update does not itself contain an
`id` field, `updateTodo` preserves every stored record's identity (it may
change other fields and bumps `updatedAt`). -/
theorem updateTodo_preserves_ids_of_id_free_patch :
    ∀ (todos : List TodoItem) (todoId : List Char) (p : TodoPatch) (now : Nat),
      p.id = none →
      ((updateTodo todos todoId p now).2.map fun t => t.id) = todos.map fun t => t.id := by
  intro todos todoId p now hp
  induction todos with
  | nil => rfl
  | cons t rest ih =>
    simp only [updateTodo]
    by_cases h : t.id = todoId
    · simp [h, applyPatch, hp]
    · cases hrec : updateTodo rest todoId p now with
      | mk b rest' =>
        rw [hrec] at ih
        cases b <;> simp_all

/-! ## Similarity: word sets and the Jaccard index (C5) -/

/-- The word set of a string as the spec describes it: the set of tokens
of the normalized string, split on single spaces. -/
def wordFinset (s : List Char) : Finset (List Char) :=
  (splitOnChar ' ' (normalizeContent s)).toFinset

/-- The Jaccard index over word sets, per the spec's words. -/
def jaccardIndex (a b : List Char) : ℚ :=
  ((wordFinset a ∩ wordFinset b).card : ℚ) / ((wordFinset a ∪ wordFinset b).card : ℚ)

theorem mem_insertUnique (acc : List (List Char)) (a x : List Char) :
    x ∈ insertUnique acc a ↔ x ∈ acc ∨ x = a := by
  unfold insertUnique
  by_cases h : a ∈ acc
  · simp only [if_pos h]
    constructor
    · exact Or.inl
    · rintro (hx | rfl)
      · exact hx
      · exact h
  · simp [if_neg h]

theorem nodup_insertUnique (acc : List (List Char)) (a : List Char)
    (h : acc.Nodup) : (insertUnique acc a).Nodup := by
  unfold insertUnique
  by_cases ha : a ∈ acc
  · simpa [if_pos ha]
  · simp [if_neg ha, List.nodup_append, h, ha]

theorem mem_foldl_insertUnique (xs : List (List Char)) (acc : List (List Char))
    (x : List Char) : x ∈ xs.foldl insertUnique acc ↔ x ∈ acc ∨ x ∈ xs := by
  induction xs generalizing acc with
  | nil => simp
  | cons y ys ih =>
    simp only [List.foldl_cons, ih, mem_insertUnique, List.mem_cons]
    tauto

theorem nodup_foldl_insertUnique (xs : List (List Char)) (acc : List (List Char))
    (h : acc.Nodup) : (xs.foldl insertUnique acc).Nodup := by
  induction xs generalizing acc with
  | nil => exact h
  | cons y ys ih => exact ih _ (nodup_insertUnique _ _ h)

theorem mem_setOfWords (xs : List (List Char)) (x : List Char) :
    x ∈ setOfWords xs ↔ x ∈ xs := by
  simp [setOfWords, mem_foldl_insertUnique]

theorem nodup_setOfWords (xs : List (List Char)) : (setOfWords xs).Nodup :=
  nodup_foldl_insertUnique xs [] List.nodup_nil

theorem toFinset_setOfWords (xs : List (List Char)) :
    (setOfWords xs).toFinset = xs.toFinset := by
  ext x
  simp [mem_setOfWords]

/-- The intersection count of `calculateSimilarity` is the cardinality of
the intersection of the word sets. -/
theorem length_filter_mem_setOfWords (sA sB : List (List Char)) :
    ((setOfWords sA).filter (fun w => w ∈ setOfWords sB)).length =
      (sA.toFinset ∩ sB.toFinset).card := by
  have hnd : ((setOfWords sA).filter (fun w => w ∈ setOfWords sB)).Nodup :=
    (nodup_setOfWords sA).filter _
  rw [← List.toFinset_card_of_nodup hnd]
  congr 1
  ext x
  simp [List.mem_filter, mem_setOfWords, Finset.mem_inter]

/-- The union count of `calculateSimilarity` is the cardinality of the
union of the word sets. -/
theorem length_setOfWords_append (sA sB : List (List Char)) :
    (setOfWords (setOfWords sA ++ setOfWords sB)).length =
      (sA.toFinset ∪ sB.toFinset).card := by
  rw [← List.toFinset_card_of_nodup (nodup_setOfWords _)]
  congr 1
  ext x
  simp [mem_setOfWords, Finset.mem_union]

/-- C5: the token-set similarity is the Jaccard index over the word sets
of the normalized strings (with value 1 on identical normalized strings),
and on the spec's concrete examples evaluates to 1 and to 3/4, the latter
not exceeding the 0.8 duplicate threshold. -/
theorem calculateSimilarity_is_jaccard :
    (∀ a b : List Char,
        calculateSimilarity a b =
          if normalizeContent a = normalizeContent b then 1 else jaccardIndex a b) ∧
    calculateSimilarity "Fix the bug".toList "fix   THE bug".toList = 1 ∧
    calculateSimilarity "Fix the bug".toList "Fix the login bug".toList = 3 / 4 ∧
    ¬ ((3 : ℚ) / 4 > 4 / 5) := by
  refine ⟨?_, ?_, ?_, by norm_num⟩
  · intro a b
    by_cases h : normalizeContent a = normalizeContent b
    · simp [calculateSimilarity, h]
    · simp only [calculateSimilarity, jaccardIndex, if_neg h]
      rw [length_filter_mem_setOfWords, length_setOfWords_append]
      rfl
  · have h : normalizeContent "Fix the bug".toList = normalizeContent "fix   THE bug".toList := by
      decide
    simp only [calculateSimilarity]
    rw [if_pos h]
  · have h : ¬ normalizeContent "Fix the bug".toList = normalizeContent "Fix the login bug".toList := by
      decide
    have h1 : ((setOfWords (splitOnChar ' ' (normalizeContent "Fix the bug".toList))).filter
        (fun w => w ∈ setOfWords (splitOnChar ' ' (normalizeContent "Fix the login bug".toList)))).length
        = 3 := by decide
    have h2 : (setOfWords
        (setOfWords (splitOnChar ' ' (normalizeContent "Fix the bug".toList)) ++
          setOfWords (splitOnChar ' ' (normalizeContent "Fix the login bug".toList)))).length = 4 := by
      decide
    simp only [calculateSimilarity, if_neg h]
    rw [h1, h2]
    norm_num

/-- C9 witness: an id-free patch applied to a concrete store preserves the
stored identity. -/
theorem updateTodo_preserves_ids_witness :
    ((updateTodo [recIdA] recIdA.id emptyPatch 5).2.map fun t => t.id) =
      [recIdA].map fun t => t.id :=
  updateTodo_preserves_ids_of_id_free_patch [recIdA] recIdA.id emptyPatch 5 rfl

/-! ## Whitespace and trimming lemmas -/

theorem isWs_of_isTerm {c : Char} (h : isTermChar c = true) : isWsChar c = true := by
  simp only [isTermChar, Bool.or_eq_true, decide_eq_true_eq] at h
  rcases h with ((rfl | rfl) | rfl) | rfl <;> rfl

theorem takeWhile_append_all {p : Char → Bool} {w : List Char} (r : List Char)
    (h : ∀ c ∈ w, p c = true) : (w ++ r).takeWhile p = w ++ r.takeWhile p := by
  induction w with
  | nil => rfl
  | cons c t ih =>
    have hc : p c = true := h c (by simp)
    simp [List.takeWhile_cons, hc, ih fun d hd => h d (by simp [hd])]

theorem dropWhile_append_all {p : Char → Bool} {w : List Char} (r : List Char)
    (h : ∀ c ∈ w, p c = true) : (w ++ r).dropWhile p = r.dropWhile p := by
  induction w with
  | nil => rfl
  | cons c t ih =>
    have hc : p c = true := h c (by simp)
    simp only [List.cons_append, List.dropWhile_cons, hc]
    exact ih fun d hd => h d (by simp [hd])

theorem sfx_getLast? {r l : List Char} (h : List.IsSuffix r l) (hr : r ≠ []) :
    r.getLast? = l.getLast? := by
  obtain ⟨t, rfl⟩ := h
  exact (List.getLast?_append_of_ne_nil t hr).symm

theorem pfx_head? {r l : List Char} (h : List.IsPrefix r l) (hr : r ≠ []) :
    r.head? = l.head? := by
  obtain ⟨t, rfl⟩ := h
  match r, hr with
  | c :: r', _ => rfl

/-- `trimChars` is `rdropWhile` after `dropWhile`. -/
theorem trimChars_eq_rdrop (l : List Char) :
    trimChars l = List.rdropWhile isWsChar (l.dropWhile isWsChar) := rfl

theorem head?_trimChars {l : List Char} {c : Char} (h : (trimChars l).head? = some c) :
    isWsChar c = false := by
  have hne : trimChars l ≠ [] := by
    intro hnil
    rw [hnil] at h
    exact Option.noConfusion h
  have hpfx : List.IsPrefix (trimChars l) (l.dropWhile isWsChar) :=
    List.rdropWhile_prefix isWsChar (l.dropWhile isWsChar)
  have hh := pfx_head? hpfx hne
  rw [hh] at h
  have hne' : l.dropWhile isWsChar ≠ [] := by
    intro hnil
    rw [hnil] at h
    exact Option.noConfusion h
  rw [List.head?_eq_head hne'] at h
  have hc := Option.some.inj h
  rw [← hc]
  exact List.head_dropWhile_not isWsChar l hne'

theorem getLast?_trimChars {l : List Char} {c : Char}
    (h : (trimChars l).getLast? = some c) : isWsChar c = false := by
  rw [trimChars_eq_rdrop] at h
  have hne : List.rdropWhile isWsChar (l.dropWhile isWsChar) ≠ [] := by
    intro hnil
    rw [hnil] at h
    exact Option.noConfusion h
  rw [List.getLast?_eq_getLast _ hne] at h
  have hnot := List.rdropWhile_last_not isWsChar (l.dropWhile isWsChar) hne
  have hc := Option.some.inj h
  rw [← hc]
  cases hval : isWsChar ((List.rdropWhile isWsChar (l.dropWhile isWsChar)).getLast hne) with
  | false => rfl
  | true => exact absurd hval hnot

theorem trimChars_idem (l : List Char) : trimChars (trimChars l) = trimChars l := by
  rw [trimChars_eq_rdrop, trimChars_eq_rdrop]
  have h1 : (List.rdropWhile isWsChar (l.dropWhile isWsChar)).dropWhile isWsChar
      = List.rdropWhile isWsChar (l.dropWhile isWsChar) := by
    cases hh : List.rdropWhile isWsChar (l.dropWhile isWsChar) with
    | nil => rfl
    | cons c t =>
      have hc : isWsChar c = false := by
        apply head?_trimChars (l := l)
        rw [trimChars_eq_rdrop, hh]
        rfl
      simp [List.dropWhile_cons, hc]
  rw [h1, List.rdropWhile_idempotent]

theorem trimChars_dropWhile (l : List Char) :
    trimChars (l.dropWhile isWsChar) = trimChars l := by
  rw [trimChars_eq_rdrop, trimChars_eq_rdrop, List.dropWhile_idempotent]

theorem trimChars_ne_nil {c : Char} {t : List Char} (hc : isWsChar c = false) :
    trimChars (c :: t) ≠ [] := by
  rw [trimChars_eq_rdrop]
  have hd : (c :: t).dropWhile isWsChar = c :: t := by simp [List.dropWhile_cons, hc]
  rw [hd, Ne, List.rdropWhile_eq_nil_iff]
  intro hall
  have := hall c (by simp)
  rw [hc] at this
  exact Bool.noConfusion this

theorem trimChars_all_ws {l : List Char} (h : ∀ x ∈ l, isWsChar x = true) :
    trimChars l = [] := by
  rw [trimChars_eq_rdrop, List.dropWhile_eq_nil_iff.mpr h]
  rfl

/-! ## Literal-matcher lemmas -/

theorem matchLiteralCI_of_map {pat w : List Char} (r : List Char)
    (h : w.map Char.toLower = pat) : matchLiteralCI pat (w ++ r) = some r := by
  induction pat generalizing w with
  | nil =>
    cases w with
    | nil => rfl
    | cons c cs => exact absurd h (by simp)
  | cons p ps ih =>
    cases w with
    | nil => exact absurd h (by simp)
    | cons c cs =>
      simp only [List.map_cons, List.cons.injEq] at h
      simp only [List.cons_append, matchLiteralCI, h.1, if_pos]
      exact ih h.2

theorem matchLiteralCI_some {pat l r : List Char} (h : matchLiteralCI pat l = some r) :
    ∃ w, l = w ++ r ∧ w.map Char.toLower = pat := by
  induction pat generalizing l with
  | nil =>
    cases l with
    | nil =>
      refine ⟨[], ?_, rfl⟩
      simpa [matchLiteralCI] using Option.some.inj h
    | cons c cs =>
      refine ⟨[], ?_, rfl⟩
      simpa [matchLiteralCI] using Option.some.inj h
  | cons p ps ih =>
    cases l with
    | nil => exact absurd h (by simp [matchLiteralCI])
    | cons c cs =>
      by_cases hc : Char.toLower c = p
      · rw [matchLiteralCI, if_pos hc] at h
        obtain ⟨w, rfl, hw⟩ := ih h
        exact ⟨c :: w, rfl, by simp [hw, hc]⟩
      · rw [matchLiteralCI, if_neg hc] at h
        exact absurd h (by simp)

theorem matchLiteralCI_sfx {pat l r : List Char} (h : matchLiteralCI pat l = some r) :
    List.IsSuffix r l := by
  obtain ⟨w, rfl, -⟩ := matchLiteralCI_some h
  exact ⟨w, rfl⟩

/-! ## Capture lemmas: on a trimmed line every capture starts with a
non-whitespace character -/

theorem markerTail_cases {r cap : List Char} (h : markerTail r = some cap) :
    (∃ c t, r.dropWhile isWsChar = c :: t ∧
        cap = (c :: t).takeWhile (fun d => !isTermChar d)) ∨
    ((∀ x ∈ r, isWsChar x = true) ∧ r ≠ []) := by
  unfold markerTail at h
  cases hb : r.dropWhile isWsChar with
  | nil =>
    right
    have hall := List.dropWhile_eq_nil_iff.mp hb
    refine ⟨hall, ?_⟩
    intro hr
    rw [hr] at h
    simp [List.dropWhile_nil] at h
  | cons c t =>
    left
    rw [hb] at h
    simp only [List.isEmpty_cons] at h
    exact ⟨c, t, rfl, (Option.some.inj h).symm⟩

theorem checkboxTail_cases {r cap : List Char} (h : checkboxTail r = some cap) :
    (∃ c t, r.dropWhile isWsChar = c :: t ∧ cap = c :: t) ∨
    ((∀ x ∈ r, isWsChar x = true) ∧ r ≠ []) := by
  cases r with
  | nil => exact absurd h (by simp [checkboxTail])
  | cons c0 r0 =>
    simp only [checkboxTail] at h
    by_cases hw : isWsChar c0 = true
    · rw [if_pos hw] at h
      cases hb : (c0 :: r0).dropWhile isWsChar with
      | nil =>
        right
        exact ⟨List.dropWhile_eq_nil_iff.mp hb, by simp⟩
      | cons c t =>
        left
        rw [hb] at h
        simp only [List.isEmpty_cons, Bool.false_eq_true, if_false] at h
        by_cases hterm : (c :: t).all (fun d => !isTermChar d)
        · rw [if_pos hterm] at h
          exact ⟨c, t, rfl, (Option.some.inj h).symm⟩
        · rw [if_neg hterm] at h
          exact absurd h (by simp)
    · rw [if_neg hw] at h
      exact absurd h (by simp)

/-- On a suffix of a string whose last character is not whitespace, neither
tail matcher can take its give-back branch, so the capture starts with a
non-whitespace character. -/
theorem capture_head_not_ws {L r cap : List Char} (hs : List.IsSuffix r L)
    (hL : ∀ c, L.getLast? = some c → isWsChar c = false)
    (h : (∃ c t, r.dropWhile isWsChar = c :: t ∧ cap = c :: t) ∨
         (∃ c t, r.dropWhile isWsChar = c :: t ∧
            cap = (c :: t).takeWhile (fun d => !isTermChar d)) ∨
         ((∀ x ∈ r, isWsChar x = true) ∧ r ≠ [])) :
    ∃ c t, cap = c :: t ∧ isWsChar c = false := by
  have headNotWs : ∀ {c : Char} {t : List Char},
      r.dropWhile isWsChar = c :: t → isWsChar c = false := by
    intro c t hb
    have hne : r.dropWhile isWsChar ≠ [] := by rw [hb]; exact List.cons_ne_nil c t
    have hnot := List.head_dropWhile_not isWsChar r hne
    have : (r.dropWhile isWsChar).head hne = c := by
      rw [← Option.some_inj, ← List.head?_eq_head hne, hb]
      rfl
    rwa [this] at hnot
  rcases h with ⟨c, t, hb, hcap⟩ | ⟨c, t, hb, hcap⟩ | ⟨hall, hne⟩
  · exact ⟨c, t, hcap, headNotWs hb⟩
  · have hcws := headNotWs hb
    have hcterm : isTermChar c = false := by
      cases hterm : isTermChar c with
      | false => rfl
      | true =>
        have := isWs_of_isTerm hterm
        rw [hcws] at this
        exact Bool.noConfusion this
    refine ⟨c, t.takeWhile (fun d => !isTermChar d), ?_, hcws⟩
    rw [hcap, List.takeWhile_cons, hcterm]
    simp
  · exfalso
    have hrl := sfx_getLast? hs hne
    have hgl := List.getLast?_eq_getLast r hne
    have hlast := hL (r.getLast hne) (by rw [← hrl]; exact hgl)
    have hmem := List.getLast_mem hne
    have := hall _ hmem
    rw [hlast] at this
    exact Bool.noConfusion this

/-! ## Suffix tracking through the searches -/

theorem searchMarker_some {pat L cap : List Char} (h : searchMarker pat L = some cap) :
    ∃ r, List.IsSuffix r L ∧ markerTail r = some cap := by
  induction L with
  | nil => exact absurd h (by simp [searchMarker])
  | cons c rest ih =>
    unfold searchMarker at h
    cases hlit : matchLiteralCI pat (c :: rest) with
    | some r0 =>
      simp only [hlit] at h
      cases hmt : markerTail r0 with
      | some cap0 =>
        simp only [hmt] at h
        obtain rfl : cap0 = cap := Option.some.inj h
        exact ⟨r0, matchLiteralCI_sfx hlit, hmt⟩
      | none =>
        simp only [hmt] at h
        obtain ⟨r, hs, hm⟩ := ih h
        exact ⟨r, hs.trans ⟨[c], rfl⟩, hm⟩
    | none =>
      simp only [hlit] at h
      obtain ⟨r, hs, hm⟩ := ih h
      exact ⟨r, hs.trans ⟨[c], rfl⟩, hm⟩

theorem matchInProgAt_some {l cap : List Char} (h : matchInProgAt l = some cap) :
    ∃ r, List.IsSuffix r l ∧ markerTail r = some cap := by
  unfold matchInProgAt at h
  cases hin : matchLiteralCI ['i', 'n'] l with
  | none => simp only [hin] at h; exact absurd h (by simp)
  | some r1 =>
    simp only [hin] at h
    have hr1 : List.IsSuffix r1 l := matchLiteralCI_sfx hin
    cases r1 with
    | nil => exact absurd h (by simp [inProgAfterIn])
    | cons c rest =>
      simp only [inProgAfterIn] at h
      by_cases hsep : c = '-' ∨ c = ' '
      · rw [if_pos (by simpa using hsep)] at h
        cases hpr : matchLiteralCI progressPat rest with
        | none => simp only [hpr] at h; exact absurd h (by simp)
        | some r2 =>
          simp only [hpr] at h
          refine ⟨r2, ?_, h⟩
          exact ((matchLiteralCI_sfx hpr).trans ⟨[c], rfl⟩).trans hr1
      · rw [if_neg (by simpa using hsep)] at h
        cases hpr : matchLiteralCI progressPat (c :: rest) with
        | none => simp only [hpr] at h; exact absurd h (by simp)
        | some r2 =>
          simp only [hpr] at h
          exact ⟨r2, (matchLiteralCI_sfx hpr).trans hr1, h⟩

theorem searchInProg_some {L cap : List Char} (h : searchInProg L = some cap) :
    ∃ r, List.IsSuffix r L ∧ markerTail r = some cap := by
  induction L with
  | nil => exact absurd h (by simp [searchInProg])
  | cons c rest ih =>
    unfold searchInProg at h
    cases hat : matchInProgAt (c :: rest) with
    | some cap0 =>
      simp only [hat] at h
      obtain rfl : cap0 = cap := Option.some.inj h
      obtain ⟨r, hs, hm⟩ := matchInProgAt_some hat
      exact ⟨r, hs, hm⟩
    | none =>
      simp only [hat] at h
      obtain ⟨r, hs, hm⟩ := ih h
      exact ⟨r, hs.trans ⟨[c], rfl⟩, hm⟩

theorem matchCheckbox_some {L : List Char} {m : Char} {cap : List Char}
    (h : matchCheckbox L = some (m, cap)) :
    ∃ r, List.IsSuffix r L ∧ checkboxTail r = some cap := by
  cases L with
  | nil => exact absurd h (by simp [matchCheckbox])
  | cons b rest =>
    simp only [matchCheckbox] at h
    split at h
    · split at h
      · exact absurd h (by simp)
      · split at h
        · next m' rest2 heq =>
            split at h
            · split at h
              · next cap0 heq2 =>
                  simp only [Option.some.injEq, Prod.mk.injEq] at h
                  obtain ⟨rfl, rfl⟩ := h
                  refine ⟨rest2, ?_, heq2⟩
                  have h1 : List.IsSuffix rest2 (rest.dropWhile isWsChar) :=
                    ⟨['[', m', ']'], heq.symm⟩
                  exact (h1.trans (List.dropWhile_suffix isWsChar)).trans ⟨[b], rfl⟩
              · exact absurd h (by simp)
            · exact absurd h (by simp)
        · exact absurd h (by simp)
    · exact absurd h (by simp)

/-- Every record produced by `parseLine` carries the trim of some capture
that starts with a non-whitespace character: its text is non-empty and has
no leading or trailing whitespace. -/
theorem parseLine_content {fp line : List Char} {n now : Nat}
    {lines : List (List Char)} {item : TodoItem}
    (h : parseLine fp line n lines now = some item) :
    item.content ≠ [] ∧ trimChars item.content = item.content := by
  have hL : ∀ c, (trimChars line).getLast? = some c → isWsChar c = false :=
    fun _ hc => getLast?_trimChars hc
  have goodCap : ∀ {cap : List Char},
      (∃ c t, cap = c :: t ∧ isWsChar c = false) →
      trimChars cap ≠ [] ∧ trimChars (trimChars cap) = trimChars cap := by
    rintro cap ⟨c, t, rfl, hc⟩
    exact ⟨trimChars_ne_nil hc, trimChars_idem _⟩
  unfold parseLine at h
  cases hm : matchCheckbox (trimChars line) with
  | some pr =>
    obtain ⟨m, cap⟩ := pr
    simp only [hm] at h
    obtain rfl := (Option.some.inj h).symm
    obtain ⟨r, hs, hct⟩ := matchCheckbox_some hm
    refine goodCap (capture_head_not_ws hs hL ?_)
    rcases checkboxTail_cases hct with hb | hc
    · exact Or.inl hb
    · exact Or.inr (Or.inr hc)
  | none =>
    simp only [hm] at h
    cases ht : searchMarker todoPat (trimChars line) with
    | some cap =>
      simp only [ht] at h
      obtain rfl := (Option.some.inj h).symm
      obtain ⟨r, hs, hmt⟩ := searchMarker_some ht
      refine goodCap (capture_head_not_ws hs hL ?_)
      rcases markerTail_cases hmt with hb | hc
      · exact Or.inr (Or.inl hb)
      · exact Or.inr (Or.inr hc)
    | none =>
      simp only [ht] at h
      cases hd : searchMarker donePat (trimChars line) with
      | some cap =>
        simp only [hd] at h
        obtain rfl := (Option.some.inj h).symm
        obtain ⟨r, hs, hmt⟩ := searchMarker_some hd
        refine goodCap (capture_head_not_ws hs hL ?_)
        rcases markerTail_cases hmt with hb | hc
        · exact Or.inr (Or.inl hb)
        · exact Or.inr (Or.inr hc)
      | none =>
        simp only [hd] at h
        cases hip : searchInProg (trimChars line) with
        | some cap =>
          simp only [hip] at h
          obtain rfl := (Option.some.inj h).symm
          obtain ⟨r, hs, hmt⟩ := searchInProg_some hip
          refine goodCap (capture_head_not_ws hs hL ?_)
          rcases markerTail_cases hmt with hb | hc
          · exact Or.inr (Or.inl hb)
          · exact Or.inr (Or.inr hc)
        | none =>
          simp only [hip] at h
          exact absurd h (by simp)

/-- C10: every record returned by the extraction engine has non-empty text
with no leading or trailing whitespace: each classifier rule trims its
capture, and on a trimmed line every capture begins with a non-whitespace
character. -/
theorem extraction_text_nonempty_trimmed :
    ∀ (fp content : List Char) (now : Nat) (item : TodoItem),
      item ∈ parseTodos fp content now →
      item.content ≠ [] ∧ trimChars item.content = item.content := by
  intro fp content now item hmem
  unfold parseTodos at hmem
  simp only [List.mem_filterMap] at hmem
  obtain ⟨p, _, hparse⟩ := hmem
  exact parseLine_content hparse

/-- C10 witness: the record extracted from `TODO: hi` has text `hi`,
non-empty and trimmed. -/
theorem extraction_text_nonempty_trimmed_witness :
    (createTodoItem "f.md".toList "hi".toList TodoStatus.Pending 1 [] 0).content ≠ [] ∧
    trimChars (createTodoItem "f.md".toList "hi".toList TodoStatus.Pending 1 [] 0).content =
      (createTodoItem "f.md".toList "hi".toList TodoStatus.Pending 1 [] 0).content :=
  extraction_text_nonempty_trimmed "f.md".toList "TODO: hi".toList 0
    (createTodoItem "f.md".toList "hi".toList TodoStatus.Pending 1 [] 0) (by decide)

/-! ## C6: the checkbox rule -/

/-- The spec's status mapping for a checkbox mark. -/
def checkboxStatus (mk : Char) : TodoStatus :=
  if mk = 'x' ∨ mk = 'X' then TodoStatus.Completed
  else if mk = '~' then TodoStatus.InProgress
  else TodoStatus.Pending

/-- C6: a line whose trimmed form is a checkbox marker — `-` or `*`, one
or more whitespace characters, `[`, one of space/x/X/~, `]`, one or more
whitespace characters, then non-blank task text — is classified by the
checkbox rule alone (it has priority over the other rules, and at most one
candidate is produced): the status is `Completed` for `x`/`X`,
`InProgress` for `~`, `Pending` for space, and the text is the trimmed
remainder. -/
theorem checkbox_rule_classification :
    ∀ (fp line : List Char) (n now : Nat) (lines : List (List Char))
      (bullet mk : Char) (ws1 ws2 text : List Char),
      trimChars line = bullet :: (ws1 ++ '[' :: mk :: ']' :: (ws2 ++ text)) →
      (bullet = '-' ∨ bullet = '*') →
      ws1 ≠ [] → (∀ c ∈ ws1, isWsChar c = true) →
      (mk = ' ' ∨ mk = 'x' ∨ mk = 'X' ∨ mk = '~') →
      ws2 ≠ [] → (∀ c ∈ ws2, isWsChar c = true) →
      (∀ c ∈ text, isTermChar c = false) →
      trimChars text ≠ [] →
      parseLine fp line n lines now =
        some (createTodoItem fp (trimChars text) (checkboxStatus mk) n
          (getContext lines (n - 1)) now) := by
  intro fp line n lines now bullet mk ws1 ws2 text hdec hb hw1ne hw1 hmk hw2ne hw2 hterm htrim
  have hlb : isWsChar '[' = false := by decide
  have htake : ((ws1 ++ '[' :: mk :: ']' :: (ws2 ++ text)).takeWhile isWsChar).isEmpty = false := by
    rw [takeWhile_append_all _ hw1]
    cases ws1 with
    | nil => exact absurd rfl hw1ne
    | cons a as => simp
  have hdrop : (ws1 ++ '[' :: mk :: ']' :: (ws2 ++ text)).dropWhile isWsChar
      = '[' :: mk :: ']' :: (ws2 ++ text) := by
    rw [dropWhile_append_all _ hw1, List.dropWhile_cons, hlb]
    simp
  have hbody : (ws2 ++ text).dropWhile isWsChar = text.dropWhile isWsChar :=
    dropWhile_append_all _ hw2
  have hbodyne : text.dropWhile isWsChar ≠ [] := by
    intro hnil
    refine htrim ?_
    rw [← trimChars_dropWhile, hnil]
    rfl
  have hballterm : (text.dropWhile isWsChar).all (fun d => !isTermChar d) = true := by
    rw [List.all_eq_true]
    intro x hx
    have hxmem : x ∈ text := (List.dropWhile_suffix isWsChar).subset hx
    simp [hterm x hxmem]
  have hct : checkboxTail (ws2 ++ text) = some (text.dropWhile isWsChar) := by
    cases ws2 with
    | nil => exact absurd rfl hw2ne
    | cons w ws2' =>
      have hwws : isWsChar w = true := hw2 w (by simp)
      have hb2 : (w :: (ws2' ++ text)).dropWhile isWsChar = text.dropWhile isWsChar := by
        rw [← List.cons_append]
        exact hbody
      have h1ne : (List.dropWhile isWsChar text).isEmpty = false := by
        cases hby : text.dropWhile isWsChar with
        | nil => exact absurd hby hbodyne
        | cons c t => rfl
      simp only [checkboxTail, List.cons_append, hwws, if_true, hb2, h1ne, hballterm]
      simp
  have hmark : isCheckboxMark mk = true := by
    rcases hmk with rfl | rfl | rfl | rfl <;> rfl
  have hmc : matchCheckbox (trimChars line) = some (mk, text.dropWhile isWsChar) := by
    rw [hdec]
    simp only [matchCheckbox]
    have hbcond : (bullet = '-' || bullet = '*') = true := by
      rcases hb with rfl | rfl <;> rfl
    simp only [hbcond, if_true, htake, hdrop, hmark, hct]
    simp
  unfold parseLine
  simp only [hmc]
  rw [trimChars_dropWhile]
  have hstat : parseStatus mk = checkboxStatus mk := by
    rcases hmk with rfl | rfl | rfl | rfl <;> rfl
  rw [hstat]

/-- C6 witness: `- [x] done task` is classified `Completed` with text
`done task`. -/
theorem checkbox_rule_classification_witness :
    parseLine "f.md".toList "- [x] done task".toList 3 ["- [x] done task".toList] 7 =
      some (createTodoItem "f.md".toList "done task".toList (checkboxStatus 'x') 3
        (getContext ["- [x] done task".toList] 2) 7) :=
  checkbox_rule_classification "f.md".toList "- [x] done task".toList 3 7
    ["- [x] done task".toList] '-' 'x' [' '] [' '] "done task".toList
    (by decide) (Or.inl rfl) (by decide) (by decide)
    (Or.inr (Or.inl rfl)) (by decide) (by decide) (by decide) (by decide)

/-! ## C8: the in-progress rule -/

/-- C8 counterexample: `INPROGRESS:` with no separator matches the code's
`IN[- ]?PROGRESS:` pattern (the separator class is optional), so the line
is classified `InProgress`, not none. -/
theorem inprogress_no_separator_counterexample :
    (parseLine "f.md".toList "INPROGRESS: finish".toList 1 [] 0).map (fun t => t.status) =
      some TodoStatus.InProgress := by
  decide

/-- The amended marking predicate: the trimmed line contains `IN`, an
optional separator (space or hyphen), `PROGRESS:` case-insensitively, and
at least one matchable character after the colon. -/
def inProgressMarked (l : List Char) : Prop :=
  ∃ pre w1 sep w2 post : List Char,
    l = pre ++ w1 ++ sep ++ w2 ++ post ∧
    w1.map Char.toLower = ['i', 'n'] ∧
    (sep = [] ∨ sep = [' '] ∨ sep = ['-']) ∧
    w2.map Char.toLower = progressPat ∧
    ∃ c ∈ post, isTermChar c = false

theorem markerTail_exists_nonterm {r cap : List Char} (h : markerTail r = some cap) :
    ∃ c ∈ r, isTermChar c = false := by
  unfold markerTail at h
  cases hb : r.dropWhile isWsChar with
  | cons c t =>
    have hne : r.dropWhile isWsChar ≠ [] := by rw [hb]; exact List.cons_ne_nil c t
    have hnot := List.head_dropWhile_not isWsChar r hne
    have hdc : (r.dropWhile isWsChar).head hne = c := by
      rw [← Option.some_inj, ← List.head?_eq_head hne, hb]
      rfl
    rw [hdc] at hnot
    have hcterm : isTermChar c = false := by
      cases hterm : isTermChar c with
      | false => rfl
      | true => rw [isWs_of_isTerm hterm] at hnot; exact Bool.noConfusion hnot
    have hmem : c ∈ r :=
      (List.dropWhile_suffix isWsChar).subset (by rw [hb]; exact List.mem_cons_self c t)
    exact ⟨c, hmem, hcterm⟩
  | nil =>
    rw [hb] at h
    simp only [List.isEmpty_nil, if_true] at h
    cases hg : (r.filter fun c => !isTermChar c).getLast? with
    | none => simp only [hg] at h; exact absurd h (by simp)
    | some lc =>
      have hfne : (r.filter fun c => !isTermChar c) ≠ [] := by
        intro hnil
        rw [hnil] at hg
        exact Option.noConfusion hg
      have hl := List.getLast?_eq_getLast _ hfne
      rw [hg] at hl
      have hlast := Option.some.inj hl
      have hmem : lc ∈ r.filter fun c => !isTermChar c := by
        rw [hlast]
        exact List.getLast_mem hfne
      have hmf := List.mem_filter.mp hmem
      exact ⟨lc, hmf.1, by simpa using hmf.2⟩

theorem markerTail_isSome_of_nonterm {r : List Char} {c : Char} (hc : c ∈ r)
    (hterm : isTermChar c = false) : ∃ cap, markerTail r = some cap := by
  unfold markerTail
  cases hb : r.dropWhile isWsChar with
  | cons x xs => exact ⟨(x :: xs).takeWhile (fun d => !isTermChar d), by simp⟩
  | nil =>
    have hcf : c ∈ r.filter fun d => !isTermChar d :=
      List.mem_filter.mpr ⟨hc, by simp [hterm]⟩
    have hfne : (r.filter fun d => !isTermChar d) ≠ [] := by
      intro hnil
      rw [hnil] at hcf
      exact List.not_mem_nil c hcf
    simp only [List.isEmpty_nil, if_true]
    cases hg : (r.filter fun d => !isTermChar d).getLast? with
    | some lc => exact ⟨[lc], by simp⟩
    | none => exact absurd (List.getLast?_eq_none_iff.mp hg) hfne

theorem matchInProgAt_decomp {l cap : List Char} (h : matchInProgAt l = some cap) :
    ∃ w1 sep w2 post : List Char,
      l = w1 ++ sep ++ w2 ++ post ∧
      w1.map Char.toLower = ['i', 'n'] ∧
      (sep = [] ∨ sep = [' '] ∨ sep = ['-']) ∧
      w2.map Char.toLower = progressPat ∧
      markerTail post = some cap := by
  unfold matchInProgAt at h
  cases hin : matchLiteralCI ['i', 'n'] l with
  | none => simp only [hin] at h; exact absurd h (by simp)
  | some r1 =>
    simp only [hin] at h
    obtain ⟨w1, rfl, hw1⟩ := matchLiteralCI_some hin
    cases r1 with
    | nil => exact absurd h (by simp [inProgAfterIn])
    | cons c rest =>
      simp only [inProgAfterIn] at h
      by_cases hsep : c = '-' ∨ c = ' '
      · rw [if_pos (by simpa using hsep)] at h
        cases hpr : matchLiteralCI progressPat rest with
        | none => simp only [hpr] at h; exact absurd h (by simp)
        | some r2 =>
          simp only [hpr] at h
          obtain ⟨w2, rfl, hw2⟩ := matchLiteralCI_some hpr
          refine ⟨w1, [c], w2, r2, by simp, hw1, ?_, hw2, h⟩
          rcases hsep with rfl | rfl
          · exact Or.inr (Or.inr rfl)
          · exact Or.inr (Or.inl rfl)
      · rw [if_neg (by simpa using hsep)] at h
        cases hpr : matchLiteralCI progressPat (c :: rest) with
        | none => simp only [hpr] at h; exact absurd h (by simp)
        | some r2 =>
          simp only [hpr] at h
          obtain ⟨w2, hrw, hw2⟩ := matchLiteralCI_some hpr
          exact ⟨w1, [], w2, r2, by rw [hrw]; simp, hw1, Or.inl rfl, hw2, h⟩

theorem searchInProg_at {L cap : List Char} (h : searchInProg L = some cap) :
    ∃ r, List.IsSuffix r L ∧ matchInProgAt r = some cap := by
  induction L with
  | nil => exact absurd h (by simp [searchInProg])
  | cons c rest ih =>
    unfold searchInProg at h
    cases hat : matchInProgAt (c :: rest) with
    | some cap0 =>
      simp only [hat] at h
      obtain rfl : cap0 = cap := Option.some.inj h
      exact ⟨c :: rest, List.suffix_refl _, hat⟩
    | none =>
      simp only [hat] at h
      obtain ⟨r, hs, hm⟩ := ih h
      exact ⟨r, hs.trans ⟨[c], rfl⟩, hm⟩

theorem matchInProgAt_of_decomp {w1 sep w2 post cap : List Char}
    (hw1 : w1.map Char.toLower = ['i', 'n'])
    (hsep : sep = [] ∨ sep = [' '] ∨ sep = ['-'])
    (hw2 : w2.map Char.toLower = progressPat)
    (hmt : markerTail post = some cap) :
    matchInProgAt (w1 ++ sep ++ w2 ++ post) = some cap := by
  have hassoc : w1 ++ sep ++ w2 ++ post = w1 ++ (sep ++ (w2 ++ post)) := by
    simp [List.append_assoc]
  have hin : matchLiteralCI ['i', 'n'] (w1 ++ (sep ++ (w2 ++ post)))
      = some (sep ++ (w2 ++ post)) := matchLiteralCI_of_map _ hw1
  rw [hassoc]
  unfold matchInProgAt
  simp only [hin]
  rcases hsep with rfl | rfl | rfl
  · cases w2 with
    | nil => exact absurd hw2 (by simp [progressPat])
    | cons p2 w2' =>
      have hp2 : Char.toLower p2 = 'p' := by
        simp only [List.map_cons, progressPat, List.cons.injEq] at hw2
        exact hw2.1
      have hns : ¬ ((p2 = '-' || p2 = ' ') = true) := by
        intro hor
        rcases Bool.or_eq_true_iff.mp hor with hx | hx
        · rw [decide_eq_true_eq.mp hx] at hp2
          exact absurd hp2 (by decide)
        · rw [decide_eq_true_eq.mp hx] at hp2
          exact absurd hp2 (by decide)
      simp only [List.nil_append, List.cons_append]
      rw [inProgAfterIn_cons p2 (w2' ++ post), if_neg hns]
      have hpr : matchLiteralCI progressPat ((p2 :: w2') ++ post) = some post :=
        matchLiteralCI_of_map _ hw2
      simp only [List.cons_append] at hpr
      simp only [hpr, hmt]
  · have hpr : matchLiteralCI progressPat (w2 ++ post) = some post :=
      matchLiteralCI_of_map _ hw2
    simp only [List.cons_append, List.nil_append]
    rw [inProgAfterIn_cons, if_pos (by decide)]
    simp only [hpr, hmt]
  · have hpr : matchLiteralCI progressPat (w2 ++ post) = some post :=
      matchLiteralCI_of_map _ hw2
    simp only [List.cons_append, List.nil_append]
    rw [inProgAfterIn_cons, if_pos (by decide)]
    simp only [hpr, hmt]

theorem searchInProg_isSome_of_sfx {L r cap : List Char} (hs : List.IsSuffix r L)
    (h : matchInProgAt r = some cap) : ∃ cap', searchInProg L = some cap' := by
  induction L with
  | nil =>
    have hr : r = [] := List.suffix_nil.mp hs
    rw [hr] at h
    exact absurd h (by simp [matchInProgAt, matchLiteralCI])
  | cons c rest ih =>
    cases hat : matchInProgAt (c :: rest) with
    | some cap0 => exact ⟨cap0, by unfold searchInProg; simp [hat]⟩
    | none =>
      have hsr : List.IsSuffix r rest := by
        rcases hs with ⟨t, ht⟩
        cases t with
        | nil =>
          simp only [List.nil_append] at ht
          rw [ht] at h
          rw [hat] at h
          exact absurd h (by simp)
        | cons x t' =>
          injection ht with hx ht'
          exact ⟨t', ht'⟩
      obtain ⟨cap', hc⟩ := ih hsr
      exact ⟨cap', by unfold searchInProg; simp [hat, hc]⟩

/-- C8 (amended): on a line matched by none of the checkbox, `TODO:` and
`DONE:` rules, the classification is `InProgress` exactly when the trimmed
line contains `IN PROGRESS:`, `IN-PROGRESS:` or `INPROGRESS:`
case-insensitively — the separator between `IN` and `PROGRESS` is
optional — followed by at least one matchable character. -/
theorem inprogress_separator_optional :
    ∀ (fp line : List Char) (n now : Nat) (lines : List (List Char)),
      matchCheckbox (trimChars line) = none →
      searchMarker todoPat (trimChars line) = none →
      searchMarker donePat (trimChars line) = none →
      ((∃ item, parseLine fp line n lines now = some item ∧
          item.status = TodoStatus.InProgress) ↔ inProgressMarked (trimChars line)) := by
  intro fp line n now lines hcb hto hdo
  constructor
  · rintro ⟨item, hp, -⟩
    unfold parseLine at hp
    simp only [hcb, hto, hdo] at hp
    cases hip : searchInProg (trimChars line) with
    | none => simp only [hip] at hp; exact absurd hp (by simp)
    | some cap =>
      obtain ⟨r, hs, hat⟩ := searchInProg_at hip
      obtain ⟨w1, sep, w2, post, hr, hw1, hsep, hw2, hmt⟩ := matchInProgAt_decomp hat
      obtain ⟨pre, hpre⟩ := hs
      obtain ⟨c, hcm, hcterm⟩ := markerTail_exists_nonterm hmt
      refine ⟨pre, w1, sep, w2, post, ?_, hw1, hsep, hw2, c, hcm, hcterm⟩
      rw [← hpre, hr]
      simp [List.append_assoc]
  · rintro ⟨pre, w1, sep, w2, post, hdec, hw1, hsep, hw2, c, hcm, hcterm⟩
    obtain ⟨cap, hmt⟩ := markerTail_isSome_of_nonterm hcm hcterm
    have hat := matchInProgAt_of_decomp hw1 hsep hw2 hmt
    have hsfx : List.IsSuffix (w1 ++ sep ++ w2 ++ post) (trimChars line) := by
      refine ⟨pre, ?_⟩
      rw [hdec]
      simp [List.append_assoc]
    obtain ⟨cap', hsi⟩ := searchInProg_isSome_of_sfx hsfx hat
    refine ⟨createTodoItem fp (trimChars cap') TodoStatus.InProgress n
      (getContext lines (n - 1)) now, ?_, rfl⟩
    unfold parseLine
    simp only [hcb, hto, hdo, hsi]

/-- C8 witness: `INPROGRESS: finish` matches none of the first three rules
and satisfies the amended marking, so a record with status `InProgress` is
produced. -/
theorem inprogress_separator_optional_witness :
    ∃ item, parseLine "f.md".toList "INPROGRESS: finish".toList 1 [] 0 = some item ∧
      item.status = TodoStatus.InProgress :=
  (inprogress_separator_optional "f.md".toList "INPROGRESS: finish".toList 1 0 []
      (by decide) (by decide) (by decide)).mpr
    ⟨[], "IN".toList, [], "PROGRESS:".toList, " finish".toList, by decide, by decide,
      Or.inl rfl, by decide, ' ', by decide, by decide⟩
